import Mathlib

/-!
Shallow embedding of `crates/typed-store/src/lib.rs` (MintStateLabs/mysten-infra).

The embedded core is the serializing actor spawned in `Store::new`: it drains
`StoreCommand`s one at a time, applies each to the backend map (`rocks::DBMap`,
an external collaborator modelled as an association list plus a per-command
failure oracle), updates the in-memory obligation table
(`HashMap<Key, VecDeque<oneshot::Sender<_>>>`), and emits replies on one-shot
channels.  Reply slots (`oneshot::Sender`) are modelled as natural-number
identifiers; the list of `(slot, message)` pairs emitted while processing a
command records exactly which sends the Rust loop performs, in order.

Backend failures are injected through an `Option StoreError` argument per
command: `none` means the backend operation succeeds with the functional map
semantics, `some e` means it fails with error `e` and (per the atomicity
contract of the backend, spec section 6) leaves the map unchanged.
-/

set_option autoImplicit false

/-- Models `rocks::TypedStoreError` as an opaque error code (the actor never
inspects errors; it only forwards them). -/
abbrev StoreError := Nat

/-- The command protocol of the actor, mirroring `enum StoreCommand<Key, Value>`.
`oneshot::Sender` reply slots are modelled as `Nat` identifiers. `Write` and
`Delete` carry no reply slot (fire-and-forget), exactly as in the source. -/
inductive StoreCommand (K V : Type) : Type
  | Write : K → V → StoreCommand K V
  | WriteAll : List (K × V) → Nat → StoreCommand K V
  | Delete : K → StoreCommand K V
  | DeleteAll : List K → Nat → StoreCommand K V
  | Read : K → Nat → StoreCommand K V
  | ReadAll : List K → Nat → StoreCommand K V
  | NotifyRead : K → Nat → StoreCommand K V
  deriving DecidableEq

instance exceptDecEq {E A : Type} [DecidableEq E] [DecidableEq A] :
    DecidableEq (Except E A)
  | .ok x, .ok y =>
    if h : x = y then .isTrue (by rw [h])
    else .isFalse (by intro he; cases he; exact h rfl)
  | .ok _, .error _ => .isFalse (by intro he; cases he)
  | .error _, .ok _ => .isFalse (by intro he; cases he)
  | .error x, .error y =>
    if h : x = y then .isTrue (by rw [h])
    else .isFalse (by intro he; cases he; exact h rfl)

/-- A message sent on a reply slot: `single` for `StoreResult<Option<Value>>`
(Read, NotifyRead, and waiter resolutions), `ack` for `StoreResult<()>`
(WriteAll, DeleteAll), `multi` for `StoreResult<Vec<Option<Value>>>` (ReadAll). -/
inductive Sent (V : Type) : Type
  | single : Except StoreError (Option V) → Sent V
  | ack : Except StoreError Unit → Sent V
  | multi : Except StoreError (List (Option V)) → Sent V
  deriving DecidableEq

/-- Modelled from the spec: lookup in the Backend Map
(`get(key) -> Result<Option<Value>, BackendError>`), functional semantics on
the association-list state; first matching key wins. -/
def dbLookup {K V : Type} [DecidableEq K] (k : K) : List (K × V) → Option V
  | [] => none
  | e :: rest => if e.1 = k then some e.2 else dbLookup k rest

/-- Modelled from the spec: removal of a key from the Backend Map state
(`remove(key)`), functional semantics. -/
def dbErase {K V : Type} [DecidableEq K] (k : K) : List (K × V) → List (K × V)
  | [] => []
  | e :: rest => if e.1 = k then dbErase k rest else e :: dbErase k rest

/-- Modelled from the spec: insertion into the Backend Map state
(`insert(key, value)`), functional semantics (overwrites any previous value). -/
def dbInsert {K V : Type} [DecidableEq K] (k : K) (v : V) (db : List (K × V)) :
    List (K × V) :=
  (k, v) :: dbErase k db

/-- The waiter queue currently registered for key `k` in the obligation table
(empty when the key is absent). Mirrors `obligations.get(&key)`. -/
def oblQueue {K : Type} [DecidableEq K] (k : K) : List (K × List Nat) → List Nat
  | [] => []
  | e :: rest => if e.1 = k then e.2 else oblQueue k rest

/-- Removal of key `k`'s entry from the obligation table, mirroring
`obligations.remove(&key)`. -/
def oblRemove {K : Type} [DecidableEq K] (k : K) :
    List (K × List Nat) → List (K × List Nat)
  | [] => []
  | e :: rest => if e.1 = k then oblRemove k rest else e :: oblRemove k rest

/-- Registration of reply slot `r` as a waiter for key `k`, mirroring
`obligations.entry(key).or_insert_with(VecDeque::new).push_back(sender)`. -/
def oblPush {K : Type} [DecidableEq K] (k : K) (r : Nat) :
    List (K × List Nat) → List (K × List Nat)
  | [] => [(k, [r])]
  | e :: rest => if e.1 = k then (e.1, e.2 ++ [r]) :: rest else e :: oblPush k r rest

/-- Draining the waiter queues of a list of keys in order, mirroring the
`for key in keys { if let Some(mut senders) = obligations.remove(&key) { ... } }`
loops of the WriteAll/DeleteAll arms. Returns the table after all removals and
the drained reply slots in drain order. -/
def drainAll {K : Type} [DecidableEq K] :
    List K → List (K × List Nat) → List (K × List Nat) × List Nat
  | [], obl => (obl, [])
  | k :: ks, obl =>
    let rest := drainAll ks (oblRemove k obl)
    (rest.1, oblQueue k obl ++ rest.2)

/-- The worker-local state of the serializing actor: the backend map's contents
and the obligation table. -/
structure ActorState (K V : Type) : Type where
  db : List (K × V)
  obligations : List (K × List Nat)
  deriving DecidableEq

/-- One iteration of the actor loop in `Store::new`: processes a single
command against state `st`.  `berr = some e` injects a backend failure `e`
for this command's backend operation; `berr = none` means the backend
operation succeeds.  Returns the new state and the list of
`(reply slot, message)` sends performed, in order. Each arm mirrors the
corresponding `match command` arm of the Rust actor. -/
def processCommand {K V : Type} [DecidableEq K] (berr : Option StoreError)
    (cmd : StoreCommand K V) (st : ActorState K V) :
    ActorState K V × List (Nat × Sent V) :=
  match cmd with
  | .Write k v =>
    let db' := match berr with
      | none => dbInsert k v st.db
      | some _ => st.db
    (⟨db', oblRemove k st.obligations⟩,
      (oblQueue k st.obligations).map (fun s => (s, Sent.single (.ok (some v)))))
  | .WriteAll kvs reply =>
    match berr with
    | none =>
      let db' := kvs.foldl (fun d kv => dbInsert kv.1 kv.2 d) st.db
      let drained := drainAll (kvs.map Prod.fst) st.obligations
      (⟨db', drained.1⟩,
        drained.2.map (fun s => (s, Sent.single (.ok none)))
          ++ [(reply, Sent.ack (.ok ()))])
    | some e => (st, [(reply, Sent.ack (.error e))])
  | .Delete k =>
    let db' := match berr with
      | none => dbErase k st.db
      | some _ => st.db
    (⟨db', oblRemove k st.obligations⟩,
      (oblQueue k st.obligations).map (fun s => (s, Sent.single (.ok none))))
  | .DeleteAll ks reply =>
    match berr with
    | none =>
      let db' := ks.foldl (fun d k => dbErase k d) st.db
      let drained := drainAll ks st.obligations
      (⟨db', drained.1⟩,
        drained.2.map (fun s => (s, Sent.single (.ok none)))
          ++ [(reply, Sent.ack (.ok ()))])
    | some e => (st, [(reply, Sent.ack (.error e))])
  | .Read k reply =>
    let resp : Except StoreError (Option V) := match berr with
      | none => .ok (dbLookup k st.db)
      | some e => .error e
    (st, [(reply, Sent.single resp)])
  | .ReadAll ks reply =>
    let resp : Except StoreError (List (Option V)) := match berr with
      | none => .ok (ks.map (fun k => dbLookup k st.db))
      | some e => .error e
    (st, [(reply, Sent.multi resp)])
  | .NotifyRead k reply =>
    let resp : Except StoreError (Option V) := match berr with
      | none => .ok (dbLookup k st.db)
      | some e => .error e
    match resp with
    | .ok (some v) => (st, [(reply, Sent.single (.ok (some v)))])
    | _ => ({ st with obligations := oblPush k reply st.obligations }, [])

/-- Processing of a whole trace of commands (each paired with its injected
backend outcome), accumulating the sends of every step in order. -/
def processTrace {K V : Type} [DecidableEq K] :
    List (Option StoreError × StoreCommand K V) → ActorState K V →
    ActorState K V × List (Nat × Sent V)
  | [], st => (st, [])
  | s :: rest, st =>
    let step := processCommand s.1 s.2 st
    let tail := processTrace rest step.1
    (tail.1, step.2 ++ tail.2)

/-- The messages delivered to reply slot `r` among a list of sends, in order. -/
def msgsTo {V : Type} (r : Nat) (sends : List (Nat × Sent V)) : List (Sent V) :=
  (sends.filter (fun p => decide (p.1 = r))).map Prod.snd

/-- Whether a command carries `r` as its reply slot. -/
def usesReply {K V : Type} (r : Nat) : StoreCommand K V → Bool
  | .WriteAll _ rep => decide (rep = r)
  | .DeleteAll _ rep => decide (rep = r)
  | .Read _ rep => decide (rep = r)
  | .ReadAll _ rep => decide (rep = r)
  | .NotifyRead _ rep => decide (rep = r)
  | _ => false

/-- Whether a step (backend outcome paired with a command) resolves the
waiters registered for key `k`: Write and Delete do regardless of the backend
outcome; WriteAll and DeleteAll do only when the batch succeeds and `k` is in
the batch. -/
def resolvesK {K V : Type} [DecidableEq K] (k : K)
    (s : Option StoreError × StoreCommand K V) : Bool :=
  match s with
  | (_, .Write k' _) => decide (k' = k)
  | (_, .Delete k') => decide (k' = k)
  | (berr, .WriteAll kvs _) => berr.isNone && decide (k ∈ kvs.map Prod.fst)
  | (berr, .DeleteAll ks _) => berr.isNone && decide (k ∈ ks)
  | _ => false

/-- Whether a command names key `k` as a mutation target. -/
def mutatesK {K V : Type} [DecidableEq K] (k : K) : StoreCommand K V → Bool
  | .Write k' _ => decide (k' = k)
  | .Delete k' => decide (k' = k)
  | .WriteAll kvs _ => decide (k ∈ kvs.map Prod.fst)
  | .DeleteAll ks _ => decide (k ∈ ks)
  | _ => false

/-- Well-formedness of the obligation table: every present key maps to a
non-empty waiter queue. -/
def oblWF {K : Type} (obl : List (K × List Nat)) : Prop :=
  ∀ e ∈ obl, e.2 ≠ []

section OblLemmas

variable {K V : Type} [DecidableEq K]

/-- Removing a key keeps exactly the entries with a different key. -/
theorem mem_oblRemove_iff {e : K × List Nat} {k : K} {obl : List (K × List Nat)} :
    e ∈ oblRemove k obl ↔ e ∈ obl ∧ e.1 ≠ k := by
  induction obl with
  | nil => simp [oblRemove]
  | cons a rest ih =>
    by_cases h : a.1 = k
    · simp only [oblRemove, if_pos h, ih, List.mem_cons]
      constructor
      · rintro ⟨he, hne⟩; exact ⟨Or.inr he, hne⟩
      · rintro ⟨he | he, hne⟩
        · subst he; exact absurd h hne
        · exact ⟨he, hne⟩
    · simp only [oblRemove, if_neg h, List.mem_cons, ih]
      constructor
      · rintro (he | ⟨he, hne⟩)
        · subst he; exact ⟨Or.inl rfl, h⟩
        · exact ⟨Or.inr he, hne⟩
      · rintro ⟨he | he, hne⟩
        · exact Or.inl he
        · exact Or.inr ⟨he, hne⟩

/-- The waiter queue of `k'` after removing key `k`: empty for `k` itself,
untouched for other keys. -/
theorem oblQueue_oblRemove (k' k : K) (obl : List (K × List Nat)) :
    oblQueue k' (oblRemove k obl) = if k' = k then [] else oblQueue k' obl := by
  induction obl with
  | nil => simp [oblQueue, oblRemove]
  | cons a rest ih =>
    by_cases h : a.1 = k
    · rw [oblRemove, if_pos h, ih]
      by_cases h' : k' = k
      · simp [h']
      · have : a.1 ≠ k' := by rw [h]; exact fun hc => h' hc.symm
        simp [h', oblQueue, this]
    · rw [oblRemove, if_neg h]
      by_cases h2 : a.1 = k'
      · have h' : k' ≠ k := by rw [← h2]; exact fun hc => h (h2 ▸ hc)
        simp [oblQueue, h2, h']
      · rw [oblQueue, if_neg h2, ih, oblQueue, if_neg h2]

/-- The waiter queue of `k'` after pushing `r` onto key `k`'s queue: appended
for `k` itself, untouched for other keys. -/
theorem oblQueue_oblPush (k' k : K) (r : Nat) (obl : List (K × List Nat)) :
    oblQueue k' (oblPush k r obl)
      = if k' = k then oblQueue k' obl ++ [r] else oblQueue k' obl := by
  induction obl with
  | nil =>
    by_cases h : k' = k
    · simp [oblPush, oblQueue, h]
    · have : k ≠ k' := fun hc => h hc.symm
      simp [oblPush, oblQueue, h, this]
  | cons a rest ih =>
    by_cases h : a.1 = k
    · rw [oblPush, if_pos h]
      by_cases h' : k' = k
      · have ha : a.1 = k' := by rw [h, h']
        simp [oblQueue, ha, h']
      · have ha : a.1 ≠ k' := by rw [h]; exact fun hc => h' hc.symm
        simp [oblQueue, ha, h']
    · rw [oblPush, if_neg h]
      by_cases h2 : a.1 = k'
      · have h' : k' ≠ k := by rw [← h2]; exact fun hc => h (h2 ▸ hc)
        simp [oblQueue, h2, h']
      · rw [oblQueue, if_neg h2, ih, oblQueue, if_neg h2]

/-- Any waiter found in `k`'s queue belongs to an entry of the table keyed `k`. -/
theorem mem_oblQueue_entry {x : Nat} {k : K} {obl : List (K × List Nat)}
    (hx : x ∈ oblQueue k obl) : ∃ e ∈ obl, e.1 = k ∧ x ∈ e.2 := by
  induction obl with
  | nil => simp [oblQueue] at hx
  | cons a rest ih =>
    by_cases h : a.1 = k
    · rw [oblQueue, if_pos h] at hx
      exact ⟨a, List.mem_cons_self a rest, h, hx⟩
    · rw [oblQueue, if_neg h] at hx
      obtain ⟨e, he, hek, hxe⟩ := ih hx
      exact ⟨e, List.mem_cons_of_mem a he, hek, hxe⟩

/-- Entries after a push: each is an old entry, an old `k`-keyed entry with `r`
appended to its queue, or the fresh entry `(k, [r])`. -/
theorem mem_oblPush {e : K × List Nat} {k : K} {r : Nat}
    {obl : List (K × List Nat)} (he : e ∈ oblPush k r obl) :
    e ∈ obl ∨ (∃ e' ∈ obl, e'.1 = k ∧ e = (e'.1, e'.2 ++ [r])) ∨ e = (k, [r]) := by
  induction obl with
  | nil =>
    simp [oblPush] at he
    exact Or.inr (Or.inr he)
  | cons a rest ih =>
    by_cases h : a.1 = k
    · rw [oblPush, if_pos h] at he
      rcases List.mem_cons.mp he with he | he
      · exact Or.inr (Or.inl ⟨a, List.mem_cons_self a rest, h, he⟩)
      · exact Or.inl (List.mem_cons_of_mem a he)
    · rw [oblPush, if_neg h] at he
      rcases List.mem_cons.mp he with he | he
      · exact Or.inl (he ▸ List.mem_cons_self a rest)
      · rcases ih he with h1 | ⟨e', he', hk, heq⟩ | h1
        · exact Or.inl (List.mem_cons_of_mem a h1)
        · exact Or.inr (Or.inl ⟨e', List.mem_cons_of_mem a he', hk, heq⟩)
        · exact Or.inr (Or.inr h1)

/-- Entries left by `drainAll`: exactly the old entries whose key is not drained. -/
theorem mem_drainAll_fst {e : K × List Nat} {ks : List K}
    {obl : List (K × List Nat)} :
    e ∈ (drainAll ks obl).1 ↔ e ∈ obl ∧ e.1 ∉ ks := by
  induction ks generalizing obl with
  | nil => simp [drainAll]
  | cons k ks ih =>
    rw [drainAll]
    simp only [ih, mem_oblRemove_iff, List.mem_cons]
    constructor
    · rintro ⟨⟨he, hne⟩, hnotin⟩
      exact ⟨he, by rintro (h | h); exact hne h; exact hnotin h⟩
    · rintro ⟨he, hnotin⟩
      exact ⟨⟨he, fun h => hnotin (Or.inl h)⟩, fun h => hnotin (Or.inr h)⟩

/-- Every reply slot drained by `drainAll` came from an entry keyed by one of
the drained keys. -/
theorem mem_drainAll_snd {x : Nat} {ks : List K} {obl : List (K × List Nat)}
    (hx : x ∈ (drainAll ks obl).2) : ∃ e ∈ obl, e.1 ∈ ks ∧ x ∈ e.2 := by
  induction ks generalizing obl with
  | nil => simp [drainAll] at hx
  | cons k ks ih =>
    rw [drainAll] at hx
    rcases List.mem_append.mp hx with hx | hx
    · obtain ⟨e, he, hek, hxe⟩ := mem_oblQueue_entry hx
      exact ⟨e, he, by rw [hek]; exact List.mem_cons_self k ks, hxe⟩
    · obtain ⟨e, he, hek, hxe⟩ := ih hx
      exact ⟨e, (mem_oblRemove_iff.mp he).1, List.mem_cons_of_mem k hek, hxe⟩

/-- Draining keys other than `k` leaves `k`'s queue untouched. -/
theorem drainAll_queue_notmem {k : K} {ks : List K} {obl : List (K × List Nat)}
    (hk : k ∉ ks) : oblQueue k (drainAll ks obl).1 = oblQueue k obl := by
  induction ks generalizing obl with
  | nil => rw [drainAll]
  | cons k1 ks ih =>
    rw [drainAll]
    have hne : k ≠ k1 := fun h => hk (h ▸ List.mem_cons_self k1 ks)
    rw [ih (fun h => hk (List.mem_cons_of_mem k1 h)), oblQueue_oblRemove,
      if_neg hne]

/-- A waiter sitting in the queue of a drained key appears among the drained
reply slots. -/
theorem drainAll_mem_snd {k : K} {r : Nat} {ks : List K}
    {obl : List (K × List Nat)} (hk : k ∈ ks) (hr : r ∈ oblQueue k obl) :
    r ∈ (drainAll ks obl).2 := by
  induction ks generalizing obl with
  | nil => simp at hk
  | cons k1 ks ih =>
    rw [drainAll]
    by_cases h : k = k1
    · subst h
      exact List.mem_append.mpr (Or.inl hr)
    · rcases List.mem_cons.mp hk with hc | hc
      · exact absurd hc h
      · refine List.mem_append.mpr (Or.inr (ih hc ?_))
        rw [oblQueue_oblRemove, if_neg h]
        exact hr

/-- Draining a key list containing `k` emits `k`'s entire waiter queue
consecutively and in registration order: the drained reply slots are some
prefix (other keys drained before `k`), then exactly `k`'s queue, then a
suffix. -/
theorem drainAll_infix {k : K} (ks : List K) (obl : List (K × List Nat))
    (hk : k ∈ ks) :
    ∃ p s, (drainAll ks obl).2 = p ++ oblQueue k obl ++ s := by
  induction ks generalizing obl with
  | nil => simp at hk
  | cons k1 ks ih =>
    by_cases h : k1 = k
    · subst h
      refine ⟨[], (drainAll ks (oblRemove k1 obl)).2, ?_⟩
      rw [drainAll]
      simp
    · have hk' : k ∈ ks := by
        rcases List.mem_cons.mp hk with hc | hc
        · exact absurd hc.symm h
        · exact hc
      obtain ⟨p, s, hps⟩ := ih (oblRemove k1 obl) hk'
      refine ⟨oblQueue k1 obl ++ p, s, ?_⟩
      rw [drainAll, hps, oblQueue_oblRemove, if_neg (fun hc => h hc.symm)]
      simp [List.append_assoc]

/-- When every waiter of `r`'s table entries lies under key `k`, draining a key
list containing `k` emits `r` exactly as often as `k`'s queue holds it. -/
theorem drainAll_count {k : K} {r : Nat} {ks : List K} {obl : List (K × List Nat)}
    (h2 : ∀ e ∈ obl, r ∈ e.2 → e.1 = k) (hk : k ∈ ks) :
    ((drainAll ks obl).2).count r = (oblQueue k obl).count r := by
  induction ks generalizing obl with
  | nil => simp at hk
  | cons k1 ks ih =>
    rw [drainAll, List.count_append]
    by_cases h : k1 = k
    · subst h
      have hdead : r ∉ (drainAll ks (oblRemove k1 obl)).2 := by
        intro hr
        obtain ⟨e, he, _, hre⟩ := mem_drainAll_snd hr
        obtain ⟨he', hne⟩ := mem_oblRemove_iff.mp he
        exact hne (h2 e he' hre)
      rw [List.count_eq_zero.mpr hdead]
      omega
    · have hqk1 : r ∉ oblQueue k1 obl := by
        intro hr
        obtain ⟨e, he, hek, hre⟩ := mem_oblQueue_entry hr
        exact h (hek ▸ h2 e he hre)
      have hk' : k ∈ ks := by
        rcases List.mem_cons.mp hk with hc | hc
        · exact absurd hc.symm h
        · exact hc
      have h2' : ∀ e ∈ oblRemove k1 obl, r ∈ e.2 → e.1 = k := fun e he hre =>
        h2 e (mem_oblRemove_iff.mp he).1 hre
      rw [List.count_eq_zero.mpr hqk1, ih h2' hk', oblQueue_oblRemove,
        if_neg (fun hc => h hc.symm)]
      omega

end OblLemmas

section MsgsLemmas

variable {V : Type}

/-- Messages to a slot distribute over concatenation of send lists. -/
theorem msgsTo_append (r : Nat) (a b : List (Nat × Sent V)) :
    msgsTo r (a ++ b) = msgsTo r a ++ msgsTo r b := by
  simp [msgsTo]

/-- A send to a different slot delivers nothing to `r`. -/
theorem msgsTo_single_ne {a r : Nat} (h : a ≠ r) (m : Sent V) :
    msgsTo r [(a, m)] = [] := by
  simp [msgsTo, h]

/-- Broadcasting one message to a queue of slots delivers to `r` once per
occurrence of `r` in the queue. -/
theorem msgsTo_map_length (r : Nat) (q : List Nat) (m : Sent V) :
    (msgsTo r (q.map (fun s => (s, m)))).length = q.count r := by
  induction q with
  | nil => simp [msgsTo]
  | cons a q ih =>
    by_cases h : a = r
    · have h1 : msgsTo r ((a, m) :: List.map (fun s => (s, m)) q)
          = m :: msgsTo r (List.map (fun s => (s, m)) q) := by simp [msgsTo, h]
      rw [List.map_cons, h1, List.length_cons, ih, List.count_cons]
      simp [h]
    · have h1 : msgsTo r ((a, m) :: List.map (fun s => (s, m)) q)
          = msgsTo r (List.map (fun s => (s, m)) q) := by simp [msgsTo, h]
      rw [List.map_cons, h1, ih, List.count_cons]
      simp [h]

/-- Broadcasting to a queue not containing `r` delivers nothing to `r`. -/
theorem msgsTo_map_nil {r : Nat} {q : List Nat} (h : r ∉ q) (m : Sent V) :
    msgsTo r (q.map (fun s => (s, m))) = [] := by
  induction q with
  | nil => simp [msgsTo]
  | cons a q ih =>
    have ha : a ≠ r := fun hc => h (hc ▸ List.mem_cons_self a q)
    have hq : r ∉ q := fun hc => h (List.mem_cons_of_mem a hc)
    simp only [List.map_cons, msgsTo, List.filter_cons, decide_eq_true_eq,
      if_neg ha]
    exact ih hq

end MsgsLemmas

section StepEquations

variable {K V : Type} [DecidableEq K]

/-- Unfolding of the actor's Write arm. -/
theorem processWrite_eq (berr : Option StoreError) (k : K) (v : V)
    (st : ActorState K V) :
    processCommand berr (.Write k v) st
      = (⟨(match berr with | none => dbInsert k v st.db | some _ => st.db),
          oblRemove k st.obligations⟩,
         (oblQueue k st.obligations).map
           (fun s => (s, Sent.single (.ok (some v))))) := rfl

/-- Unfolding of the actor's Delete arm. -/
theorem processDelete_eq (berr : Option StoreError) (k : K)
    (st : ActorState K V) :
    processCommand berr (.Delete k) st
      = (⟨(match berr with | none => dbErase k st.db | some _ => st.db),
          oblRemove k st.obligations⟩,
         (oblQueue k st.obligations).map
           (fun s => (s, Sent.single (.ok none)))) := rfl

/-- Unfolding of the actor's WriteAll arm when the batch insert succeeds. -/
theorem processWriteAll_ok (kvs : List (K × V)) (reply : Nat)
    (st : ActorState K V) :
    processCommand none (.WriteAll kvs reply) st
      = (⟨kvs.foldl (fun d kv => dbInsert kv.1 kv.2 d) st.db,
          (drainAll (kvs.map Prod.fst) st.obligations).1⟩,
         (drainAll (kvs.map Prod.fst) st.obligations).2.map
             (fun s => (s, Sent.single (.ok none)))
           ++ [(reply, Sent.ack (.ok ()))]) := rfl

/-- Unfolding of the actor's WriteAll arm when the batch insert fails. -/
theorem processWriteAll_err (e : StoreError) (kvs : List (K × V)) (reply : Nat)
    (st : ActorState K V) :
    processCommand (some e) (.WriteAll kvs reply) st
      = (st, [(reply, Sent.ack (.error e))]) := rfl

/-- Unfolding of the actor's DeleteAll arm when the batch remove succeeds. -/
theorem processDeleteAll_ok (ks : List K) (reply : Nat) (st : ActorState K V) :
    processCommand none (.DeleteAll ks reply) st
      = (⟨ks.foldl (fun d k => dbErase k d) st.db, (drainAll ks st.obligations).1⟩,
         (drainAll ks st.obligations).2.map (fun s => (s, Sent.single (.ok none)))
           ++ [(reply, Sent.ack (.ok ()))]) := rfl

/-- Unfolding of the actor's DeleteAll arm when the batch remove fails. -/
theorem processDeleteAll_err (e : StoreError) (ks : List K) (reply : Nat)
    (st : ActorState K V) :
    processCommand (some e) (.DeleteAll ks reply) st
      = (st, [(reply, Sent.ack (.error e))]) := rfl

/-- Unfolding of the actor's Read arm. -/
theorem processRead_eq (berr : Option StoreError) (k : K) (reply : Nat)
    (st : ActorState K V) :
    processCommand berr (.Read k reply) st
      = (st, [(reply, Sent.single (match berr with
          | none => .ok (dbLookup k st.db)
          | some e => .error e))]) := rfl

/-- Unfolding of the actor's ReadAll arm. -/
theorem processReadAll_eq (berr : Option StoreError) (ks : List K) (reply : Nat)
    (st : ActorState K V) :
    processCommand berr (.ReadAll ks reply) st
      = (st, [(reply, Sent.multi (match berr with
          | none => .ok (ks.map (fun k => dbLookup k st.db))
          | some e => .error e))]) := rfl

/-- Unfolding of the actor's NotifyRead arm when the key currently holds a
value: immediate reply, no waiter registration. -/
theorem processNotify_hit {k : K} {st : ActorState K V} {v : V} (r : Nat)
    (h : dbLookup k st.db = some v) :
    processCommand none (.NotifyRead k r) st
      = (st, [(r, Sent.single (.ok (some v)))]) := by
  simp [processCommand, h]

/-- Unfolding of the actor's NotifyRead arm when the key is absent: the reply
slot is enqueued as a waiter, nothing is sent. -/
theorem processNotify_miss {k : K} {st : ActorState K V} (r : Nat)
    (h : dbLookup k st.db = none) :
    processCommand none (.NotifyRead k r) st
      = ({ st with obligations := oblPush k r st.obligations }, []) := by
  simp [processCommand, h]

/-- Unfolding of the actor's NotifyRead arm when the backend lookup fails: the
error is dropped and the reply slot is enqueued as a waiter. -/
theorem processNotify_err (e : StoreError) (k : K) (r : Nat)
    (st : ActorState K V) :
    processCommand (some e) (.NotifyRead k r) st
      = ({ st with obligations := oblPush k r st.obligations }, []) := rfl

end StepEquations

section StepLemmas

variable {K V : Type} [DecidableEq K]

/-- A slot appearing in no queue of the table appears in no `oblQueue`. -/
theorem notMem_oblQueue_of {r : Nat} {obl : List (K × List Nat)}
    (hobl : ∀ e ∈ obl, r ∉ e.2) (k : K) : r ∉ oblQueue k obl := fun hr => by
  obtain ⟨e, he, _, hre⟩ := mem_oblQueue_entry hr
  exact hobl e he hre

/-- A slot held only under key `k` is absent from every other key's queue. -/
theorem notMem_oblQueue_ne {r : Nat} {k k' : K} {obl : List (K × List Nat)}
    (h2 : ∀ e ∈ obl, r ∈ e.2 → e.1 = k) (hne : k' ≠ k) :
    r ∉ oblQueue k' obl := fun hr => by
  obtain ⟨e, he, hek, hre⟩ := mem_oblQueue_entry hr
  exact hne (hek ▸ h2 e he hre)

/-- A slot appearing in no queue is never drained. -/
theorem notMem_drainAll_of {r : Nat} {ks : List K} {obl : List (K × List Nat)}
    (hobl : ∀ e ∈ obl, r ∉ e.2) : r ∉ (drainAll ks obl).2 := fun hr => by
  obtain ⟨e, he, _, hre⟩ := mem_drainAll_snd hr
  exact hobl e he hre

/-- A slot held only under key `k` is not drained by a batch avoiding `k`. -/
theorem notMem_drainAll_only {r : Nat} {k : K} {ks : List K}
    {obl : List (K × List Nat)}
    (h2 : ∀ e ∈ obl, r ∈ e.2 → e.1 = k) (hk : k ∉ ks) :
    r ∉ (drainAll ks obl).2 := fun hr => by
  obtain ⟨e, he, heks, hre⟩ := mem_drainAll_snd hr
  exact hk (h2 e he hre ▸ heks)

/-- Pushing a different slot preserves total absence of `r` from the table. -/
theorem notMem_oblPush_all {r rep : Nat} {k : K} {obl : List (K × List Nat)}
    (hobl : ∀ e ∈ obl, r ∉ e.2) (hner : rep ≠ r) :
    ∀ e ∈ oblPush k rep obl, r ∉ e.2 := by
  intro e he hre
  rcases mem_oblPush he with h1 | ⟨e', he', _, heq⟩ | h1
  · exact hobl e h1 hre
  · rw [heq] at hre
    rcases List.mem_append.mp hre with h | h
    · exact hobl e' he' h
    · exact hner (List.mem_singleton.mp h).symm
  · rw [h1] at hre
    exact hner (List.mem_singleton.mp hre).symm

/-- Pushing a different slot preserves "every queue holding `r` is keyed `k`". -/
theorem only_oblPush {r rep : Nat} {k k2 : K} {obl : List (K × List Nat)}
    (h2 : ∀ e ∈ obl, r ∈ e.2 → e.1 = k) (hner : rep ≠ r) :
    ∀ e ∈ oblPush k2 rep obl, r ∈ e.2 → e.1 = k := by
  intro e he hre
  rcases mem_oblPush he with h1 | ⟨e', he', hk', heq⟩ | h1
  · exact h2 e h1 hre
  · rw [heq] at hre ⊢
    rcases List.mem_append.mp hre with h | h
    · exact h2 e' he' h
    · exact absurd (List.mem_singleton.mp h).symm hner
  · rw [h1] at hre
    exact absurd (List.mem_singleton.mp hre).symm hner

/-- Processing one command sends nothing to a slot `r` that sits in no waiter
queue and is not the command's reply slot, and leaves `r` out of every queue. -/
theorem step_dead (berr : Option StoreError) (cmd : StoreCommand K V)
    (st : ActorState K V) (r : Nat)
    (hobl : ∀ e ∈ st.obligations, r ∉ e.2) (hrep : usesReply r cmd = false) :
    msgsTo r (processCommand berr cmd st).2 = []
      ∧ ∀ e ∈ (processCommand berr cmd st).1.obligations, r ∉ e.2 := by
  cases cmd with
  | Write k v =>
    rw [processWrite_eq]
    refine ⟨msgsTo_map_nil (notMem_oblQueue_of hobl k) _, ?_⟩
    intro e he
    exact hobl e (mem_oblRemove_iff.mp he).1
  | Delete k =>
    rw [processDelete_eq]
    refine ⟨msgsTo_map_nil (notMem_oblQueue_of hobl k) _, ?_⟩
    intro e he
    exact hobl e (mem_oblRemove_iff.mp he).1
  | WriteAll kvs reply =>
    have hner : reply ≠ r := by simpa [usesReply] using hrep
    cases berr with
    | none =>
      rw [processWriteAll_ok, msgsTo_append,
        msgsTo_map_nil (notMem_drainAll_of hobl) _, msgsTo_single_ne hner]
      refine ⟨rfl, ?_⟩
      intro e he
      exact hobl e (mem_drainAll_fst.mp he).1
    | some e =>
      rw [processWriteAll_err, msgsTo_single_ne hner]
      exact ⟨rfl, hobl⟩
  | DeleteAll ks reply =>
    have hner : reply ≠ r := by simpa [usesReply] using hrep
    cases berr with
    | none =>
      rw [processDeleteAll_ok, msgsTo_append,
        msgsTo_map_nil (notMem_drainAll_of hobl) _, msgsTo_single_ne hner]
      refine ⟨rfl, ?_⟩
      intro e he
      exact hobl e (mem_drainAll_fst.mp he).1
    | some e =>
      rw [processDeleteAll_err, msgsTo_single_ne hner]
      exact ⟨rfl, hobl⟩
  | Read k reply =>
    have hner : reply ≠ r := by simpa [usesReply] using hrep
    rw [processRead_eq, msgsTo_single_ne hner]
    exact ⟨rfl, hobl⟩
  | ReadAll ks reply =>
    have hner : reply ≠ r := by simpa [usesReply] using hrep
    rw [processReadAll_eq, msgsTo_single_ne hner]
    exact ⟨rfl, hobl⟩
  | NotifyRead k rep =>
    have hner : rep ≠ r := by simpa [usesReply] using hrep
    cases berr with
    | none =>
      cases hdb : dbLookup k st.db with
      | some v =>
        rw [processNotify_hit rep hdb, msgsTo_single_ne hner]
        exact ⟨rfl, hobl⟩
      | none =>
        rw [processNotify_miss rep hdb]
        exact ⟨rfl, notMem_oblPush_all hobl hner⟩
    | some e =>
      rw [processNotify_err]
      exact ⟨rfl, notMem_oblPush_all hobl hner⟩

/-- A trace of commands none of which carries reply slot `r` delivers nothing
to `r` once `r` sits in no waiter queue. -/
theorem trace_dead (cs : List (Option StoreError × StoreCommand K V))
    (st : ActorState K V) (r : Nat)
    (hobl : ∀ e ∈ st.obligations, r ∉ e.2)
    (hrep : ∀ s ∈ cs, usesReply r s.2 = false) :
    msgsTo r (processTrace cs st).2 = [] := by
  induction cs generalizing st with
  | nil => rfl
  | cons s rest ih =>
    obtain ⟨hd, htl⟩ := step_dead s.1 s.2 st r hobl
      (hrep s (List.mem_cons_self s rest))
    rw [processTrace, msgsTo_append, hd, ih _ htl
      (fun s' hs' => hrep s' (List.mem_cons_of_mem s hs'))]
    rfl

/-- Processing a command that does not resolve key `k`'s waiters (and does not
carry `r` as reply slot) sends nothing to a waiter `r` registered once under
`k`, and preserves its registration. -/
theorem step_keep (berr : Option StoreError) (cmd : StoreCommand K V)
    (st : ActorState K V) (r : Nat) (k : K)
    (hres : resolvesK k (berr, cmd) = false) (hrep : usesReply r cmd = false)
    (h1 : (oblQueue k st.obligations).count r = 1)
    (h2 : ∀ e ∈ st.obligations, r ∈ e.2 → e.1 = k) :
    msgsTo r (processCommand berr cmd st).2 = []
      ∧ (oblQueue k (processCommand berr cmd st).1.obligations).count r = 1
      ∧ ∀ e ∈ (processCommand berr cmd st).1.obligations, r ∈ e.2 → e.1 = k := by
  cases cmd with
  | Write k' v =>
    have hne : k' ≠ k := by simpa [resolvesK] using hres
    rw [processWrite_eq]
    refine ⟨msgsTo_map_nil (notMem_oblQueue_ne h2 hne) _, ?_, ?_⟩
    · rw [oblQueue_oblRemove, if_neg (fun hc => hne hc.symm)]
      exact h1
    · intro e he
      exact h2 e (mem_oblRemove_iff.mp he).1
  | Delete k' =>
    have hne : k' ≠ k := by simpa [resolvesK] using hres
    rw [processDelete_eq]
    refine ⟨msgsTo_map_nil (notMem_oblQueue_ne h2 hne) _, ?_, ?_⟩
    · rw [oblQueue_oblRemove, if_neg (fun hc => hne hc.symm)]
      exact h1
    · intro e he
      exact h2 e (mem_oblRemove_iff.mp he).1
  | WriteAll kvs reply =>
    have hner : reply ≠ r := by simpa [usesReply] using hrep
    cases berr with
    | none =>
      have hk : k ∉ kvs.map Prod.fst := by simpa [resolvesK] using hres
      rw [processWriteAll_ok, msgsTo_append,
        msgsTo_map_nil (notMem_drainAll_only h2 hk) _, msgsTo_single_ne hner]
      refine ⟨rfl, ?_, ?_⟩
      · rw [drainAll_queue_notmem hk]
        exact h1
      · intro e he
        exact h2 e (mem_drainAll_fst.mp he).1
    | some e =>
      rw [processWriteAll_err, msgsTo_single_ne hner]
      exact ⟨rfl, h1, h2⟩
  | DeleteAll ks reply =>
    have hner : reply ≠ r := by simpa [usesReply] using hrep
    cases berr with
    | none =>
      have hk : k ∉ ks := by simpa [resolvesK] using hres
      rw [processDeleteAll_ok, msgsTo_append,
        msgsTo_map_nil (notMem_drainAll_only h2 hk) _, msgsTo_single_ne hner]
      refine ⟨rfl, ?_, ?_⟩
      · rw [drainAll_queue_notmem hk]
        exact h1
      · intro e he
        exact h2 e (mem_drainAll_fst.mp he).1
    | some e =>
      rw [processDeleteAll_err, msgsTo_single_ne hner]
      exact ⟨rfl, h1, h2⟩
  | Read k' reply =>
    have hner : reply ≠ r := by simpa [usesReply] using hrep
    rw [processRead_eq, msgsTo_single_ne hner]
    exact ⟨rfl, h1, h2⟩
  | ReadAll ks reply =>
    have hner : reply ≠ r := by simpa [usesReply] using hrep
    rw [processReadAll_eq, msgsTo_single_ne hner]
    exact ⟨rfl, h1, h2⟩
  | NotifyRead k2 rep =>
    have hner : rep ≠ r := by simpa [usesReply] using hrep
    have hpush : (oblQueue k (oblPush k2 rep st.obligations)).count r = 1 := by
      rw [oblQueue_oblPush]
      by_cases hkk : k = k2
      · rw [if_pos hkk, List.count_append]
        have : List.count r [rep] = 0 :=
          List.count_eq_zero.mpr (fun hc => hner (List.mem_singleton.mp hc).symm)
        omega
      · rw [if_neg hkk]
        exact h1
    cases berr with
    | none =>
      cases hdb : dbLookup k2 st.db with
      | some v =>
        rw [processNotify_hit rep hdb, msgsTo_single_ne hner]
        exact ⟨rfl, h1, h2⟩
      | none =>
        rw [processNotify_miss rep hdb]
        exact ⟨rfl, hpush, only_oblPush h2 hner⟩
    | some e =>
      rw [processNotify_err]
      exact ⟨rfl, hpush, only_oblPush h2 hner⟩

/-- Processing a command that resolves key `k`'s waiters delivers exactly one
message to a waiter `r` registered once under `k`, and removes `r` from every
queue of the table. -/
theorem step_fire (berr : Option StoreError) (cmd : StoreCommand K V)
    (st : ActorState K V) (r : Nat) (k : K)
    (hres : resolvesK k (berr, cmd) = true) (hrep : usesReply r cmd = false)
    (h1 : (oblQueue k st.obligations).count r = 1)
    (h2 : ∀ e ∈ st.obligations, r ∈ e.2 → e.1 = k) :
    (msgsTo r (processCommand berr cmd st).2).length = 1
      ∧ ∀ e ∈ (processCommand berr cmd st).1.obligations, r ∉ e.2 := by
  cases cmd with
  | Write k' v =>
    have hk : k' = k := by simpa [resolvesK] using hres
    subst hk
    rw [processWrite_eq]
    refine ⟨by rw [msgsTo_map_length, h1], ?_⟩
    intro e he hre
    exact (mem_oblRemove_iff.mp he).2 (h2 e (mem_oblRemove_iff.mp he).1 hre)
  | Delete k' =>
    have hk : k' = k := by simpa [resolvesK] using hres
    subst hk
    rw [processDelete_eq]
    refine ⟨by rw [msgsTo_map_length, h1], ?_⟩
    intro e he hre
    exact (mem_oblRemove_iff.mp he).2 (h2 e (mem_oblRemove_iff.mp he).1 hre)
  | WriteAll kvs reply =>
    have hner : reply ≠ r := by simpa [usesReply] using hrep
    obtain ⟨hnone, hk⟩ : berr = none ∧ k ∈ kvs.map Prod.fst := by
      cases berr with
      | none => exact ⟨rfl, by simpa [resolvesK] using hres⟩
      | some e => simp [resolvesK] at hres
    subst hnone
    rw [processWriteAll_ok, msgsTo_append, msgsTo_single_ne hner]
    constructor
    · rw [List.append_nil, msgsTo_map_length, drainAll_count h2 hk, h1]
    · intro e he hre
      exact (mem_drainAll_fst.mp he).2 (h2 e (mem_drainAll_fst.mp he).1 hre ▸ hk)
  | DeleteAll ks reply =>
    have hner : reply ≠ r := by simpa [usesReply] using hrep
    obtain ⟨hnone, hk⟩ : berr = none ∧ k ∈ ks := by
      cases berr with
      | none => exact ⟨rfl, by simpa [resolvesK] using hres⟩
      | some e => simp [resolvesK] at hres
    subst hnone
    rw [processDeleteAll_ok, msgsTo_append, msgsTo_single_ne hner]
    constructor
    · rw [List.append_nil, msgsTo_map_length, drainAll_count h2 hk, h1]
    · intro e he hre
      exact (mem_drainAll_fst.mp he).2 (h2 e (mem_drainAll_fst.mp he).1 hre ▸ hk)
  | Read k' reply => simp [resolvesK] at hres
  | ReadAll ks reply => simp [resolvesK] at hres
  | NotifyRead k2 rep => simp [resolvesK] at hres

end StepLemmas

section DbLemmas

variable {K V : Type} [DecidableEq K]

/-- Lookup after erasing a key: gone for that key, untouched otherwise. -/
theorem dbLookup_dbErase (k' k : K) (db : List (K × V)) :
    dbLookup k' (dbErase k db) = if k' = k then none else dbLookup k' db := by
  induction db with
  | nil => simp [dbLookup, dbErase]
  | cons a rest ih =>
    by_cases h : a.1 = k
    · rw [dbErase, if_pos h, ih]
      by_cases h' : k' = k
      · simp [h']
      · have : a.1 ≠ k' := by rw [h]; exact fun hc => h' hc.symm
        simp [h', dbLookup, this]
    · rw [dbErase, if_neg h]
      by_cases h2 : a.1 = k'
      · have h' : k' ≠ k := by rw [← h2]; exact fun hc => h (h2 ▸ hc)
        simp [dbLookup, h2, h']
      · rw [dbLookup, if_neg h2, ih, dbLookup, if_neg h2]

/-- Lookup after inserting a key: the new value for that key, untouched
otherwise. -/
theorem dbLookup_dbInsert (k' k : K) (v : V) (db : List (K × V)) :
    dbLookup k' (dbInsert k v db)
      = if k' = k then some v else dbLookup k' db := by
  by_cases h : k' = k
  · simp [dbInsert, dbLookup, h]
  · have : k ≠ k' := fun hc => h hc.symm
    rw [dbInsert, dbLookup, if_neg this, dbLookup_dbErase, if_neg h, if_neg h]

/-- A batch insert avoiding key `k` leaves `k`'s lookup unchanged. -/
theorem dbLookup_foldl_insert {k : K} {kvs : List (K × V)} {db : List (K × V)}
    (hk : k ∉ kvs.map Prod.fst) :
    dbLookup k (kvs.foldl (fun d kv => dbInsert kv.1 kv.2 d) db)
      = dbLookup k db := by
  induction kvs generalizing db with
  | nil => rfl
  | cons a rest ih =>
    rw [List.foldl_cons]
    have hne : k ≠ a.1 := fun hc => hk (by
      rw [List.map_cons, hc]; exact List.mem_cons_self a.1 (rest.map Prod.fst))
    rw [ih (fun hc => hk (by rw [List.map_cons]; exact List.mem_cons_of_mem _ hc)),
      dbLookup_dbInsert, if_neg hne]

/-- A batch erase avoiding key `k` leaves `k`'s lookup unchanged. -/
theorem dbLookup_foldl_erase {k : K} {ks : List K} {db : List (K × V)}
    (hk : k ∉ ks) :
    dbLookup k (ks.foldl (fun d k1 => dbErase k1 d) db) = dbLookup k db := by
  induction ks generalizing db with
  | nil => rfl
  | cons a rest ih =>
    rw [List.foldl_cons]
    have hne : k ≠ a := fun hc => hk (hc ▸ List.mem_cons_self a rest)
    rw [ih (fun hc => hk (List.mem_cons_of_mem _ hc)), dbLookup_dbErase,
      if_neg hne]

/-- A command that does not name key `k` as a mutation target leaves `k`'s
backend lookup unchanged, whatever the backend outcome. -/
theorem dbLookup_step {k : K} {berr : Option StoreError}
    {cmd : StoreCommand K V} {st : ActorState K V}
    (hm : mutatesK k cmd = false) :
    dbLookup k (processCommand berr cmd st).1.db = dbLookup k st.db := by
  cases cmd with
  | Write k' v =>
    have hne : k ≠ k' := fun hc =>
      by simp [mutatesK, hc.symm] at hm
    rw [processWrite_eq]
    cases berr with
    | none => exact (dbLookup_dbInsert k k' v st.db).trans (if_neg hne)
    | some e => rfl
  | Delete k' =>
    have hne : k ≠ k' := fun hc =>
      by simp [mutatesK, hc.symm] at hm
    rw [processDelete_eq]
    cases berr with
    | none => exact (dbLookup_dbErase k k' st.db).trans (if_neg hne)
    | some e => rfl
  | WriteAll kvs reply =>
    have hk : k ∉ kvs.map Prod.fst := by simpa [mutatesK] using hm
    cases berr with
    | none => rw [processWriteAll_ok]; exact dbLookup_foldl_insert hk
    | some e => rfl
  | DeleteAll ks reply =>
    have hk : k ∉ ks := by simpa [mutatesK] using hm
    cases berr with
    | none => rw [processDeleteAll_ok]; exact dbLookup_foldl_erase hk
    | some e => rfl
  | Read k' reply => rfl
  | ReadAll ks reply => rfl
  | NotifyRead k' rep =>
    cases berr with
    | none =>
      cases hdb : dbLookup k' st.db with
      | some v => rw [processNotify_hit rep hdb]
      | none => rw [processNotify_miss rep hdb]
    | some e => rw [processNotify_err]

/-- A trace of commands none of which mutates key `k` leaves `k`'s backend
lookup unchanged. -/
theorem dbLookup_trace {k : K}
    {mid : List (Option StoreError × StoreCommand K V)} {st : ActorState K V}
    (hm : ∀ s ∈ mid, mutatesK k s.2 = false) :
    dbLookup k (processTrace mid st).1.db = dbLookup k st.db := by
  induction mid generalizing st with
  | nil => rfl
  | cons s rest ih =>
    rw [processTrace]
    exact (ih (fun s' hs' => hm s' (List.mem_cons_of_mem s hs'))).trans
      (dbLookup_step (hm s (List.mem_cons_self s rest)))

/-- Pushing a waiter keeps every queue of the table non-empty. -/
theorem oblWF_oblPush {obl : List (K × List Nat)} (h : oblWF obl) (k : K)
    (r : Nat) : oblWF (oblPush k r obl) := by
  intro e he
  rcases mem_oblPush he with h1 | ⟨e', _, _, heq⟩ | h1
  · exact h e h1
  · rw [heq]
    simp
  · rw [h1]
    simp

end DbLemmas

/-- Claim C1 counterexample: with an empty store, a NotifyRead for key 0 with
reply slot 5 whose backend lookup fails with error 3 sends nothing at all — in
particular the error is not delivered to slot 5 — and instead registers slot 5
as a waiter for key 0. -/
theorem notifyReadErrorSwallowed_cex :
    ¬ ((5, Sent.single (Except.error 3))
        ∈ (processCommand (some 3) (StoreCommand.NotifyRead 0 5)
            (⟨[], []⟩ : ActorState Nat Nat)).2)
      ∧ (processCommand (some 3) (StoreCommand.NotifyRead 0 5)
          (⟨[], []⟩ : ActorState Nat Nat)).2 = []
      ∧ (processCommand (some 3) (StoreCommand.NotifyRead 0 5)
          (⟨[], []⟩ : ActorState Nat Nat)).1.obligations = [(0, [5])] := by
  decide

/-- Claim C1 (corrected): for every NotifyRead command whose backend lookup
returns a BackendError, the error is NOT propagated to the caller — no message
is sent on any reply slot — and the reply slot is appended to the key's waiter
queue exactly as in the key-absent case, so the caller keeps waiting. -/
theorem notifyReadErrorRegistersWaiter {K V : Type} [DecidableEq K]
    (e : StoreError) (k : K) (r : Nat) (st : ActorState K V) :
    (processCommand (some e) (StoreCommand.NotifyRead k r)
        (st : ActorState K V)).2 = ([] : List (Nat × Sent V))
      ∧ (processCommand (some e) (StoreCommand.NotifyRead k r) st).1.db = st.db
      ∧ oblQueue k (processCommand (some e)
            (StoreCommand.NotifyRead k r) st).1.obligations
          = oblQueue k st.obligations ++ [r] := by
  rw [processNotify_err]
  exact ⟨rfl, rfl, by rw [oblQueue_oblPush, if_pos rfl]⟩

/-- Claim C2 counterexample: a waiter (slot 7) registered for key 0 is resolved
— with the written value, message `Ok (some 42)` — by a Write whose backend
insert fails with error 3, contradicting "a mutation whose backend operation
fails does not resolve it". -/
theorem waiterResolvedByFailedWrite_cex :
    (processCommand (some 3) (StoreCommand.Write 0 42)
        (⟨[], [(0, [7])]⟩ : ActorState Nat Nat)).2
      = [(7, Sent.single (Except.ok (some 42)))]
      ∧ (processCommand (some 3) (StoreCommand.Write 0 42)
          (⟨[], [(0, [7])]⟩ : ActorState Nat Nat)).1.obligations = [] := by
  decide

/-- Claim C2 (corrected): a waiter registered once under key K receives exactly
one message over any subsequent trace that contains a mutation resolving K —
where Write and Delete resolve K's waiters regardless of the backend outcome,
and WriteAll/DeleteAll resolve them only when the backend batch succeeds — and
receives no message over a trace containing no such mutation. -/
theorem waiterResolvedExactlyOnce {K V : Type} [DecidableEq K]
    (st : ActorState K V) (cs : List (Option StoreError × StoreCommand K V))
    (r : Nat) (k : K)
    (h1 : (oblQueue k st.obligations).count r = 1)
    (h2 : ∀ e ∈ st.obligations, r ∈ e.2 → e.1 = k)
    (h3 : ∀ s ∈ cs, usesReply r s.2 = false) :
    (msgsTo r (processTrace cs st).2).length
      = if cs.any (resolvesK k) then 1 else 0 := by
  induction cs generalizing st with
  | nil => rfl
  | cons s rest ih =>
    obtain ⟨berr, cmd⟩ := s
    have hrep0 : usesReply r cmd = false :=
      h3 (berr, cmd) (List.mem_cons_self _ _)
    have h3' : ∀ s ∈ rest, usesReply r s.2 = false := fun s hs =>
      h3 s (List.mem_cons_of_mem _ hs)
    rw [processTrace, msgsTo_append, List.length_append, List.any_cons]
    cases hr : resolvesK k (berr, cmd) with
    | true =>
      obtain ⟨hlen, hdead⟩ := step_fire berr cmd st r k hr hrep0 h1 h2
      rw [hlen, trace_dead rest _ r hdead h3']
      simp
    | false =>
      obtain ⟨hnil, h1', h2'⟩ := step_keep berr cmd st r k hr hrep0 h1 h2
      rw [hnil, ih _ h1' h2' h3', Bool.false_or]
      simp

/-- Claim C2 witness: the corrected statement instantiated at a waiter (slot 7)
for key 0 and the single-step trace consisting of a failed Write to key 0. -/
theorem waiterResolvedExactlyOnce_witness :
    ((oblQueue 0 ((⟨[], [(0, [7])]⟩ : ActorState Nat Nat)).obligations).count 7
        = 1)
      ∧ (∀ e ∈ ((⟨[], [(0, [7])]⟩ : ActorState Nat Nat)).obligations,
          7 ∈ e.2 → e.1 = 0)
      ∧ (∀ s ∈ [((some 3 : Option StoreError),
            StoreCommand.Write (0 : Nat) (42 : Nat))],
          usesReply 7 s.2 = false)
      ∧ (msgsTo 7 (processTrace
            [((some 3 : Option StoreError),
              StoreCommand.Write (0 : Nat) (42 : Nat))]
            (⟨[], [(0, [7])]⟩ : ActorState Nat Nat)).2).length
          = if ([((some 3 : Option StoreError),
                StoreCommand.Write (0 : Nat) (42 : Nat))]).any (resolvesK 0)
            then 1 else 0 :=
  ⟨by decide, by decide, by decide,
    waiterResolvedExactlyOnce (⟨[], [(0, [7])]⟩ : ActorState Nat Nat)
      [((some 3 : Option StoreError), StoreCommand.Write (0 : Nat) (42 : Nat))]
      7 0 (by decide) (by decide) (by decide)⟩

/-- Claim C3: for every WriteAll command, on backend success every pending
waiter of every key in the batch receives `Ok none` (no value carried) and the
caller's reply slot receives the success acknowledgement; on backend failure
the state is unchanged and the caller's reply slot receives exactly the error. -/
theorem writeAllResolvesWaiters {K V : Type} [DecidableEq K]
    (kvs : List (K × V)) (reply : Nat) (st : ActorState K V) :
    (∀ k ∈ kvs.map Prod.fst, ∀ r ∈ oblQueue k st.obligations,
        (r, Sent.single (.ok none))
          ∈ (processCommand none (StoreCommand.WriteAll kvs reply) st).2)
      ∧ ((reply, Sent.ack (.ok ()))
          ∈ (processCommand none (StoreCommand.WriteAll kvs reply) st).2)
      ∧ (∀ e : StoreError,
          processCommand (some e) (StoreCommand.WriteAll kvs reply) st
            = (st, [(reply, Sent.ack (.error e))])) := by
  refine ⟨?_, ?_, fun e => rfl⟩
  · intro k hk r hr
    rw [processWriteAll_ok]
    exact List.mem_append.mpr
      (Or.inl (List.mem_map.mpr ⟨r, drainAll_mem_snd hk hr, rfl⟩))
  · rw [processWriteAll_ok]
    exact List.mem_append.mpr (Or.inr (List.mem_singleton.mpr rfl))

/-- Claim C3 witness: the WriteAll theorem instantiated at a batch writing
key 1 while slot 4 waits for key 1. -/
theorem writeAllResolvesWaiters_witness :
    ((1 : Nat) ∈ ([((1 : Nat), (9 : Nat))].map Prod.fst))
      ∧ ((4 : Nat) ∈ oblQueue 1
          ((⟨[], [(1, [4])]⟩ : ActorState Nat Nat)).obligations)
      ∧ ((4, Sent.single (Except.ok (none : Option Nat)))
          ∈ (processCommand none (StoreCommand.WriteAll [((1 : Nat), (9 : Nat))] 2)
              (⟨[], [(1, [4])]⟩ : ActorState Nat Nat)).2) :=
  ⟨by decide, by decide,
    (writeAllResolvesWaiters [((1 : Nat), (9 : Nat))] 2
        (⟨[], [(1, [4])]⟩ : ActorState Nat Nat)).1
      1 (by decide) 4 (by decide)⟩

/-- Claim C4: a NotifyRead for a key currently holding a value replies
immediately with that value and leaves the state (including the obligation
table) untouched; for an absent key it appends the reply slot at the back of
the key's waiter queue (creating the entry if needed) and sends nothing. -/
theorem notifyReadImmediateOrRegister {K V : Type} [DecidableEq K]
    (k : K) (r : Nat) (st : ActorState K V) :
    (∀ v : V, dbLookup k st.db = some v →
        processCommand none (StoreCommand.NotifyRead k r) st
          = (st, [(r, Sent.single (.ok (some v)))]))
      ∧ (dbLookup k st.db = none →
          processCommand none (StoreCommand.NotifyRead k r) st
              = ({ st with obligations := oblPush k r st.obligations }, [])
            ∧ oblQueue k (oblPush k r st.obligations)
                = oblQueue k st.obligations ++ [r]) := by
  refine ⟨fun v h => processNotify_hit r h, fun h => ⟨processNotify_miss r h, ?_⟩⟩
  rw [oblQueue_oblPush, if_pos rfl]

/-- Claim C4 witness: immediate reply when key 0 holds value 9, and waiter
registration when the store is empty. -/
theorem notifyReadImmediateOrRegister_witness :
    (processCommand none (StoreCommand.NotifyRead (0 : Nat) 5)
        (⟨[(0, (9 : Nat))], []⟩ : ActorState Nat Nat)
      = (⟨[(0, 9)], []⟩, [(5, Sent.single (Except.ok (some 9)))]))
      ∧ (processCommand none (StoreCommand.NotifyRead (0 : Nat) 5)
          (⟨[], []⟩ : ActorState Nat Nat)
        = (⟨[], [(0, [5])]⟩, [])) :=
  ⟨(notifyReadImmediateOrRegister 0 5
      (⟨[(0, 9)], []⟩ : ActorState Nat Nat)).1 9 (by decide),
    ((notifyReadImmediateOrRegister 0 5
      (⟨[], []⟩ : ActorState Nat Nat)).2 (by decide)).1⟩

/-- Claim C5: waiters for a key are resolved strictly in registration order by
every mutation arm — a Write (resp. Delete) of key k emits one message per
waiter of k's queue in exactly the queue's order, whatever the backend
outcome; a successful WriteAll (resp. DeleteAll) whose batch contains k emits
k's entire waiter queue consecutively and in queue order within its sends; and
each NotifyRead registration appends its reply slot at the back of the queue,
so queue order is registration order. -/
theorem waitersFifoOrder {K V : Type} [DecidableEq K]
    (berr : Option StoreError) (k : K) (v : V) (r reply : Nat)
    (kvs : List (K × V)) (ks : List K) (st : ActorState K V) :
    ((processCommand berr (StoreCommand.Write k v) st).2
        = (oblQueue k st.obligations).map
            (fun s => (s, Sent.single (.ok (some v)))))
      ∧ ((processCommand berr (StoreCommand.Delete k) st).2
          = (oblQueue k st.obligations).map
              (fun s => (s, Sent.single (.ok none))))
      ∧ (k ∈ kvs.map Prod.fst →
          ∃ p s, (processCommand none (StoreCommand.WriteAll kvs reply) st).2
            = p ++ (oblQueue k st.obligations).map
                (fun x => (x, Sent.single (.ok none))) ++ s)
      ∧ (k ∈ ks →
          ∃ p s, (processCommand none (StoreCommand.DeleteAll ks reply) st).2
            = p ++ (oblQueue k st.obligations).map
                (fun x => (x, Sent.single (.ok none))) ++ s)
      ∧ oblQueue k (oblPush k r st.obligations)
          = oblQueue k st.obligations ++ [r] := by
  refine ⟨?_, ?_, ?_, ?_, ?_⟩
  · rw [processWrite_eq]
  · rw [processDelete_eq]
  · intro hk
    obtain ⟨p, s, hps⟩ := drainAll_infix (kvs.map Prod.fst) st.obligations hk
    refine ⟨p.map (fun x => (x, Sent.single (.ok none))),
      s.map (fun x => (x, Sent.single (.ok none)))
        ++ [(reply, Sent.ack (.ok ()))], ?_⟩
    rw [processWriteAll_ok, hps]
    simp [List.append_assoc]
  · intro hk
    obtain ⟨p, s, hps⟩ := drainAll_infix ks st.obligations hk
    refine ⟨p.map (fun x => (x, Sent.single (.ok none))),
      s.map (fun x => (x, Sent.single (.ok none)))
        ++ [(reply, Sent.ack (.ok ()))], ?_⟩
    rw [processDeleteAll_ok, hps]
    simp [List.append_assoc]
  · rw [oblQueue_oblPush, if_pos rfl]

/-- Claim C5 witness: with slots 4 then 6 waiting for key 0, a successful
WriteAll and a successful DeleteAll of key 0 each emit the queue [4, 6]
consecutively and in order among their sends. -/
theorem waitersFifoOrder_witness :
    ((0 : Nat) ∈ ([((0 : Nat), (2 : Nat))].map Prod.fst))
      ∧ (∃ p s,
          (processCommand none (StoreCommand.WriteAll [((0 : Nat), (2 : Nat))] 3)
              (⟨[], [(0, [4, 6])]⟩ : ActorState Nat Nat)).2
            = p ++ (oblQueue 0
                  ((⟨[], [(0, [4, 6])]⟩ : ActorState Nat Nat)).obligations).map
                (fun x => (x, Sent.single (.ok none))) ++ s)
      ∧ ((0 : Nat) ∈ [(0 : Nat)])
      ∧ (∃ p s,
          (processCommand none (StoreCommand.DeleteAll [(0 : Nat)] 3)
              (⟨[], [(0, [4, 6])]⟩ : ActorState Nat Nat)).2
            = p ++ (oblQueue 0
                  ((⟨[], [(0, [4, 6])]⟩ : ActorState Nat Nat)).obligations).map
                (fun x => (x, Sent.single (.ok none))) ++ s) :=
  ⟨by decide,
    (waitersFifoOrder none 0 2 9 3 [((0 : Nat), (2 : Nat))] [(0 : Nat)]
        (⟨[], [(0, [4, 6])]⟩ : ActorState Nat Nat)).2.2.1 (by decide),
    by decide,
    (waitersFifoOrder none 0 2 9 3 [((0 : Nat), (2 : Nat))] [(0 : Nat)]
        (⟨[], [(0, [4, 6])]⟩ : ActorState Nat Nat)).2.2.2.1 (by decide)⟩

/-- Claim C6: a DeleteAll whose backend batch remove fails leaves the whole
state (hence the obligation table) unchanged and sends exactly the error to the
caller's reply slot; on success every waiter of every deleted key receives
`Ok none` and the reply slot receives the acknowledgement. -/
theorem deleteAllFailureKeepsWaiters {K V : Type} [DecidableEq K]
    (ks : List K) (reply : Nat) (st : ActorState K V) :
    (∀ e : StoreError,
        processCommand (some e) (StoreCommand.DeleteAll ks reply) st
          = (st, [(reply, Sent.ack (.error e))]))
      ∧ (∀ k ∈ ks, ∀ r ∈ oblQueue k st.obligations,
          (r, Sent.single (.ok none))
            ∈ (processCommand none (StoreCommand.DeleteAll ks reply) st).2)
      ∧ ((reply, Sent.ack (.ok ()))
          ∈ (processCommand none (StoreCommand.DeleteAll ks reply) st).2) := by
  refine ⟨fun e => rfl, ?_, ?_⟩
  · intro k hk r hr
    rw [processDeleteAll_ok]
    exact List.mem_append.mpr
      (Or.inl (List.mem_map.mpr ⟨r, drainAll_mem_snd hk hr, rfl⟩))
  · rw [processDeleteAll_ok]
    exact List.mem_append.mpr (Or.inr (List.mem_singleton.mpr rfl))

/-- Claim C6 witness: the DeleteAll theorem instantiated at a batch deleting
key 1 while slot 4 waits for key 1. -/
theorem deleteAllFailureKeepsWaiters_witness :
    ((1 : Nat) ∈ [(1 : Nat)])
      ∧ ((4 : Nat) ∈ oblQueue 1
          ((⟨[(1, (9 : Nat))], [(1, [4])]⟩ : ActorState Nat Nat)).obligations)
      ∧ ((4, Sent.single (Except.ok (none : Option Nat)))
          ∈ (processCommand none (StoreCommand.DeleteAll [(1 : Nat)] 2)
              (⟨[(1, (9 : Nat))], [(1, [4])]⟩ : ActorState Nat Nat)).2) :=
  ⟨by decide, by decide,
    (deleteAllFailureKeepsWaiters [(1 : Nat)] 2
        (⟨[(1, (9 : Nat))], [(1, [4])]⟩ : ActorState Nat Nat)).2.1
      1 (by decide) 4 (by decide)⟩

/-- Claim C7: Read and ReadAll leave the actor state — in particular the
obligation table — completely unchanged and send exactly one message, the
backend's result verbatim, on the caller's reply slot. -/
theorem readPureLookups {K V : Type} [DecidableEq K]
    (berr : Option StoreError) (k : K) (ks : List K) (reply : Nat)
    (st : ActorState K V) :
    (processCommand berr (StoreCommand.Read k reply) st
        = (st, [(reply, Sent.single (match berr with
            | none => .ok (dbLookup k st.db)
            | some e => .error e))]))
      ∧ (processCommand berr (StoreCommand.ReadAll ks reply) st
          = (st, [(reply, Sent.multi (match berr with
              | none => .ok (ks.map (fun k1 => dbLookup k1 st.db))
              | some e => .error e))])) :=
  ⟨processRead_eq berr k reply st, processReadAll_eq berr ks reply st⟩

/-- Claim C8: a successful Delete of key k, followed — after any commands that
do not name k as a mutation target — by a successful Read of k, replies with
absence (`Ok none`). -/
theorem deleteThenReadAbsent {K V : Type} [DecidableEq K]
    (k : K) (reply : Nat) (st : ActorState K V)
    (mid : List (Option StoreError × StoreCommand K V))
    (hmid : ∀ s ∈ mid, mutatesK k s.2 = false) :
    (processCommand none (StoreCommand.Read k reply)
        (processTrace mid
          (processCommand none (StoreCommand.Delete k) st).1).1).2
      = [(reply, Sent.single (.ok none))] := by
  rw [processRead_eq]
  have h0 : dbLookup k (processCommand none (StoreCommand.Delete k) st).1.db
      = none := by
    rw [processDelete_eq]
    exact (dbLookup_dbErase k k st.db).trans (if_pos rfl)
  rw [dbLookup_trace hmid, h0]

/-- Claim C8 witness: delete key 0, write key 1 in between, then read key 0 —
the reply is absence. -/
theorem deleteThenReadAbsent_witness :
    (∀ s ∈ [((none : Option StoreError),
        StoreCommand.Write (1 : Nat) (5 : Nat))], mutatesK 0 s.2 = false)
      ∧ (processCommand none (StoreCommand.Read (0 : Nat) 3)
          (processTrace
            [((none : Option StoreError), StoreCommand.Write (1 : Nat) (5 : Nat))]
            (processCommand none (StoreCommand.Delete (0 : Nat))
              (⟨[(0, (9 : Nat))], []⟩ : ActorState Nat Nat)).1).1).2
        = [(3, Sent.single (Except.ok (none : Option Nat)))] :=
  ⟨by decide,
    deleteThenReadAbsent 0 3 (⟨[(0, (9 : Nat))], []⟩ : ActorState Nat Nat)
      [((none : Option StoreError), StoreCommand.Write (1 : Nat) (5 : Nat))]
      (by decide)⟩

/-- Claim C9: a waiter registered by NotifyRead while its key is absent is
resolved by a subsequently processed Write with `Ok (some v)` (the written
value) and by a subsequently processed Delete with `Ok none` (absence),
whatever the backend outcome of that mutation. -/
theorem notifyWakeupValue {K V : Type} [DecidableEq K]
    (k : K) (r : Nat) (v : V) (berr : Option StoreError)
    (st : ActorState K V) (habs : dbLookup k st.db = none) :
    ((r, Sent.single (.ok (some v)))
        ∈ (processCommand berr (StoreCommand.Write k v)
            (processCommand none (StoreCommand.NotifyRead k r) st).1).2)
      ∧ ((r, Sent.single (.ok none))
          ∈ (processCommand berr (StoreCommand.Delete k)
              (processCommand none (StoreCommand.NotifyRead k r) st).1).2) := by
  have hst : (processCommand none (StoreCommand.NotifyRead k r) st).1
      = { st with obligations := oblPush k r st.obligations } := by
    rw [processNotify_miss r habs]
  constructor
  · rw [hst, processWrite_eq]
    refine List.mem_map.mpr ⟨r, ?_, rfl⟩
    rw [oblQueue_oblPush, if_pos rfl]
    exact List.mem_append.mpr (Or.inr (List.mem_singleton.mpr rfl))
  · rw [hst, processDelete_eq]
    refine List.mem_map.mpr ⟨r, ?_, rfl⟩
    rw [oblQueue_oblPush, if_pos rfl]
    exact List.mem_append.mpr (Or.inr (List.mem_singleton.mpr rfl))

/-- Claim C9 witness: slot 5 waits for key 0 of an empty store; a following
Write of 7 resolves it with `Ok (some 7)`. -/
theorem notifyWakeupValue_witness :
    dbLookup (0 : Nat) ((⟨[], []⟩ : ActorState Nat Nat)).db = none
      ∧ ((5, Sent.single (Except.ok (some (7 : Nat))))
          ∈ (processCommand none (StoreCommand.Write (0 : Nat) (7 : Nat))
              (processCommand none (StoreCommand.NotifyRead (0 : Nat) 5)
                (⟨[], []⟩ : ActorState Nat Nat)).1).2) :=
  ⟨by decide,
    (notifyWakeupValue 0 5 7 none (⟨[], []⟩ : ActorState Nat Nat)
        (by decide)).1⟩

/-- Claim C10: processing any command preserves the obligation-table invariant
that every present key maps to a non-empty waiter queue; moreover a Write to
key k removes k's entry in full (its queue is empty afterwards). -/
theorem obligationTableInvariant {K V : Type} [DecidableEq K]
    (berr : Option StoreError) (cmd : StoreCommand K V)
    (st : ActorState K V) (k : K) (v : V)
    (hwf : oblWF st.obligations) :
    oblWF (processCommand berr cmd st).1.obligations
      ∧ oblQueue k (processCommand berr
          (StoreCommand.Write k v) st).1.obligations = [] := by
  constructor
  · cases cmd with
    | Write k1 v1 =>
      rw [processWrite_eq]
      intro e he
      exact hwf e (mem_oblRemove_iff.mp he).1
    | Delete k1 =>
      rw [processDelete_eq]
      intro e he
      exact hwf e (mem_oblRemove_iff.mp he).1
    | WriteAll kvs reply =>
      cases berr with
      | none =>
        rw [processWriteAll_ok]
        intro e he
        exact hwf e (mem_drainAll_fst.mp he).1
      | some e => exact hwf
    | DeleteAll ks reply =>
      cases berr with
      | none =>
        rw [processDeleteAll_ok]
        intro e he
        exact hwf e (mem_drainAll_fst.mp he).1
      | some e => exact hwf
    | Read k1 reply => exact hwf
    | ReadAll ks reply => exact hwf
    | NotifyRead k1 rep =>
      cases berr with
      | none =>
        cases hdb : dbLookup k1 st.db with
        | some v1 =>
          rw [processNotify_hit rep hdb]
          exact hwf
        | none =>
          rw [processNotify_miss rep hdb]
          exact oblWF_oblPush hwf k1 rep
      | some e =>
        rw [processNotify_err]
        exact oblWF_oblPush hwf k1 rep
  · rw [processWrite_eq]
    exact (oblQueue_oblRemove k k st.obligations).trans (if_pos rfl)

/-- Claim C10 witness: the invariant theorem instantiated at a well-formed
table with one waiter and a successful WriteAll command. -/
theorem obligationTableInvariant_witness :
    oblWF ((⟨[], [(0, [7])]⟩ : ActorState Nat Nat)).obligations
      ∧ (oblWF (processCommand none
            (StoreCommand.WriteAll [((0 : Nat), (1 : Nat))] 2)
            (⟨[], [(0, [7])]⟩ : ActorState Nat Nat)).1.obligations
        ∧ oblQueue 0 (processCommand none
            (StoreCommand.Write (0 : Nat) (1 : Nat))
            (⟨[], [(0, [7])]⟩ : ActorState Nat Nat)).1.obligations = []) :=
  ⟨fun e he => by
      rcases List.mem_singleton.mp he with h
      rw [h]
      simp,
    obligationTableInvariant none (StoreCommand.WriteAll [((0 : Nat), (1 : Nat))] 2)
      (⟨[], [(0, [7])]⟩ : ActorState Nat Nat) 0 1
      (fun e he => by
        rcases List.mem_singleton.mp he with h
        rw [h]
        simp)⟩
